import Mathlib

/-!
Verification of the stackbit utility library against its specification.

The development shallowly embeds the library's components:

* the sequential async iteration helpers (`forEachPromise`, `mapPromise`,
  `findPromise`, `reducePromise`, and the variant of `forEachPromise` that
  treats a callback resolving with `false` as an early break);
* the lodash-style path-addressed object utilities (`hasPath` / `getPath` /
  `setPath`, `copy`, `copyIfNotSet`, `getFirst`) over a JSON-like value type;
* the deep tree mapper `mapDeep`;
* the `TaskQueue` with its concurrency-limit and minimum-interval gates;
* the frontmatter parser `parseMarkdownWithFrontMatter` with JavaScript
  string semantics (first-occurrence `replace`, `indexOf`, lazy
  `^\s*?(\n|$)` match).

An asynchronous callback is embedded as a function returning `Except`:
the settled outcome of the promise it returns.  The helpers additionally
return the list of indices at which the callback was invoked, in invocation
order, so that ordering and short-circuit properties can be stated.
-/

namespace StackbitUtils

/-! ## Sequential async iteration helpers (promise-utils)

The JavaScript source drives each helper with an index-based inner
function `next(index)` that invokes the callback on `array[index]`, waits
for the returned promise to settle, and either continues with
`next(index + 1)`, resolves, or rejects the helper's promise with the
callback's error.  The embedding renders that loop as structural recursion
over the not-yet-visited suffix of the array while threading the same
`index` counter; the head of the suffix is `array[index]`.  Each function
returns the invocation log (the indices at which the callback was invoked,
in order) together with the settled outcome. -/

/-- The loop `next(index)` of `forEachPromise`: resolved callback values are
discarded (`.then(() => next(index + 1))`), a rejection rejects the whole
helper at once. -/
def forEachFrom (callback : α → Nat → Except ε β) :
    List α → Nat → List Nat × Except ε Unit
  | [], _ => ([], Except.ok Unit.unit)
  | x :: rest, index =>
    match callback x index with
    | Except.ok _ =>
      let r := forEachFrom callback rest (index + 1)
      (index :: r.1, r.2)
    | Except.error e => ([index], Except.error e)

/-- `forEachPromise(array, callback)` (plain variant, `index.js` and
`part_000`): iterate sequentially, discard results, resolve with no value. -/
def forEachPromise (array : List α) (callback : α → Nat → Except ε β) :
    List Nat × Except ε Unit :=
  forEachFrom callback array 0

/-- The loop of the TypeScript variant of `forEachPromise`: identical except
that a callback resolving with the value `false` resolves the helper early.
`isFalseResult` embeds the `result === false` test for the callback's result
type. -/
def forEachFromTS (callback : α → Nat → Except ε β) (isFalseResult : β → Bool) :
    List α → Nat → List Nat × Except ε Unit
  | [], _ => ([], Except.ok Unit.unit)
  | x :: rest, index =>
    match callback x index with
    | Except.ok result =>
      if isFalseResult result then ([index], Except.ok Unit.unit)
      else
        let r := forEachFromTS callback isFalseResult rest (index + 1)
        (index :: r.1, r.2)
    | Except.error e => ([index], Except.error e)

/-- The TypeScript variant of `forEachPromise` (`src/index.js`, second
document): resolves early, with no value, when a callback resolves `false`. -/
def forEachPromiseTS (array : List α) (callback : α → Nat → Except ε β)
    (isFalseResult : β → Bool) : List Nat × Except ε Unit :=
  forEachFromTS callback isFalseResult array 0

/-- The loop of `mapPromise`: `results[index] = result` collects results in
index order; the collected list is resolved once the whole array is done. -/
def mapFrom (callback : α → Nat → Except ε β) :
    List α → Nat → List Nat × Except ε (List β)
  | [], _ => ([], Except.ok [])
  | x :: rest, index =>
    match callback x index with
    | Except.ok result =>
      let r := mapFrom callback rest (index + 1)
      (index :: r.1, Except.map (fun results => result :: results) r.2)
    | Except.error e => ([index], Except.error e)

/-- `mapPromise(array, callback)`. -/
def mapPromise (array : List α) (callback : α → Nat → Except ε β) :
    List Nat × Except ε (List β) :=
  mapFrom callback array 0

/-- The loop of `findPromise`: a truthy callback result resolves with the
element itself; exhaustion resolves with `undefined` (here `none`). -/
def findFrom (callback : α → Nat → Except ε Bool) :
    List α → Nat → List Nat × Except ε (Option α)
  | [], _ => ([], Except.ok none)
  | x :: rest, index =>
    match callback x index with
    | Except.ok result =>
      if result then ([index], Except.ok (some x))
      else
        let r := findFrom callback rest (index + 1)
        (index :: r.1, r.2)
    | Except.error e => ([index], Except.error e)

/-- `findPromise(array, callback)`. -/
def findPromise (array : List α) (callback : α → Nat → Except ε Bool) :
    List Nat × Except ε (Option α) :=
  findFrom callback array 0

/-- The loop of `reducePromise`: the accumulator is threaded through the
sequential chain, starting from the caller-supplied initial value. -/
def reduceFrom (callback : γ → α → Nat → Except ε γ) :
    List α → Nat → γ → List Nat × Except ε γ
  | [], _, accumulator => ([], Except.ok accumulator)
  | x :: rest, index, accumulator =>
    match callback accumulator x index with
    | Except.ok result =>
      let r := reduceFrom callback rest (index + 1) result
      (index :: r.1, r.2)
    | Except.error e => ([index], Except.error e)

/-- `reducePromise(array, callback, initialValue)`. -/
def reducePromise (array : List α) (callback : γ → α → Nat → Except ε γ)
    (initialValue : γ) : List Nat × Except ε γ :=
  reduceFrom callback array 0 initialValue

/-! ### Ordering and short-circuit lemmas for the sequential helpers -/

theorem log_eq_range_of_range0 {log : List Nat} (h : ∃ n, log = List.range' 0 n) :
    log = List.range log.length := by
  obtain ⟨n, hn⟩ := h
  subst hn
  rw [List.length_range', List.range_eq_range']

theorem not_mem_range_succ_of_lt {k j : Nat} (h : k < j) : j ∉ List.range (k + 1) := by
  simp only [List.mem_range]
  omega

/-- Every invocation log of `forEachFrom` is a run of consecutive indices
starting at `index`, and an error outcome names the callback invocation at
the log's last index. -/
theorem forEachFrom_spec (callback : α → Nat → Except ε β) :
    ∀ (l : List α) (index : Nat),
      ∃ n, (forEachFrom callback l index).1 = List.range' index n
        ∧ ∀ e, (forEachFrom callback l index).2 = Except.error e →
            ∃ j x, l[j]? = some x ∧ callback x (index + j) = Except.error e ∧ n = j + 1 := by
  intro l
  induction l with
  | nil =>
    intro index
    exact ⟨0, rfl, fun e h => by simp [forEachFrom] at h⟩
  | cons x rest ih =>
    intro index
    cases hc : callback x index with
    | ok v =>
      simp only [forEachFrom, hc]
      obtain ⟨n, hlog, herr⟩ := ih (index + 1)
      refine ⟨n + 1, by rw [show List.range' index (n + 1) = index :: List.range' (index + 1) n from rfl, hlog], ?_⟩
      intro e he
      obtain ⟨j, y, hy, hcb, hn⟩ := herr e he
      refine ⟨j + 1, y, by simpa using hy, ?_, by omega⟩
      rw [show index + (j + 1) = index + 1 + j by omega]
      exact hcb
    | error e0 =>
      simp only [forEachFrom, hc]
      refine ⟨1, rfl, ?_⟩
      intro e he
      cases he
      exact ⟨0, x, by simp, by rw [Nat.add_zero]; exact hc, rfl⟩

/-- Same characterization for the early-break variant of `forEachPromise`. -/
theorem forEachFromTS_spec (callback : α → Nat → Except ε β) (isFalseResult : β → Bool) :
    ∀ (l : List α) (index : Nat),
      ∃ n, (forEachFromTS callback isFalseResult l index).1 = List.range' index n
        ∧ ∀ e, (forEachFromTS callback isFalseResult l index).2 = Except.error e →
            ∃ j x, l[j]? = some x ∧ callback x (index + j) = Except.error e ∧ n = j + 1 := by
  intro l
  induction l with
  | nil =>
    intro index
    exact ⟨0, rfl, fun e h => by simp [forEachFromTS] at h⟩
  | cons x rest ih =>
    intro index
    cases hc : callback x index with
    | ok v =>
      cases hf : isFalseResult v with
      | true =>
        simp only [forEachFromTS, hc, hf, if_true]
        exact ⟨1, rfl, fun e he => by cases he⟩
      | false =>
        simp only [forEachFromTS, hc, hf, Bool.false_eq_true, if_false]
        obtain ⟨n, hlog, herr⟩ := ih (index + 1)
        refine ⟨n + 1, by rw [show List.range' index (n + 1) = index :: List.range' (index + 1) n from rfl, hlog], ?_⟩
        intro e he
        obtain ⟨j, y, hy, hcb, hn⟩ := herr e he
        refine ⟨j + 1, y, by simpa using hy, ?_, by omega⟩
        rw [show index + (j + 1) = index + 1 + j by omega]
        exact hcb
    | error e0 =>
      simp only [forEachFromTS, hc]
      refine ⟨1, rfl, ?_⟩
      intro e he
      cases he
      exact ⟨0, x, by simp, by rw [Nat.add_zero]; exact hc, rfl⟩

/-- Same characterization for `mapFrom`. -/
theorem mapFrom_spec (callback : α → Nat → Except ε β) :
    ∀ (l : List α) (index : Nat),
      ∃ n, (mapFrom callback l index).1 = List.range' index n
        ∧ ∀ e, (mapFrom callback l index).2 = Except.error e →
            ∃ j x, l[j]? = some x ∧ callback x (index + j) = Except.error e ∧ n = j + 1 := by
  intro l
  induction l with
  | nil =>
    intro index
    exact ⟨0, rfl, fun e h => by simp [mapFrom] at h⟩
  | cons x rest ih =>
    intro index
    cases hc : callback x index with
    | ok v =>
      simp only [mapFrom, hc]
      obtain ⟨n, hlog, herr⟩ := ih (index + 1)
      refine ⟨n + 1, by rw [show List.range' index (n + 1) = index :: List.range' (index + 1) n from rfl, hlog], ?_⟩
      intro e he
      have he2 : (mapFrom callback rest (index + 1)).2 = Except.error e := by
        cases hz : (mapFrom callback rest (index + 1)).2 with
        | ok w => rw [hz] at he; simp [Except.map] at he
        | error e2 =>
          rw [hz] at he
          simp only [Except.map] at he
          exact he
      obtain ⟨j, y, hy, hcb, hn⟩ := herr e he2
      refine ⟨j + 1, y, by simpa using hy, ?_, by omega⟩
      rw [show index + (j + 1) = index + 1 + j by omega]
      exact hcb
    | error e0 =>
      simp only [mapFrom, hc]
      refine ⟨1, rfl, ?_⟩
      intro e he
      cases he
      exact ⟨0, x, by simp, by rw [Nat.add_zero]; exact hc, rfl⟩

/-- Same characterization for `findFrom`. -/
theorem findFrom_spec (callback : α → Nat → Except ε Bool) :
    ∀ (l : List α) (index : Nat),
      ∃ n, (findFrom callback l index).1 = List.range' index n
        ∧ ∀ e, (findFrom callback l index).2 = Except.error e →
            ∃ j x, l[j]? = some x ∧ callback x (index + j) = Except.error e ∧ n = j + 1 := by
  intro l
  induction l with
  | nil =>
    intro index
    exact ⟨0, rfl, fun e h => by simp [findFrom] at h⟩
  | cons x rest ih =>
    intro index
    cases hc : callback x index with
    | ok v =>
      cases v with
      | true =>
        simp only [findFrom, hc, if_true]
        exact ⟨1, rfl, fun e he => by cases he⟩
      | false =>
        simp only [findFrom, hc, Bool.false_eq_true, if_false]
        obtain ⟨n, hlog, herr⟩ := ih (index + 1)
        refine ⟨n + 1, by rw [show List.range' index (n + 1) = index :: List.range' (index + 1) n from rfl, hlog], ?_⟩
        intro e he
        obtain ⟨j, y, hy, hcb, hn⟩ := herr e he
        refine ⟨j + 1, y, by simpa using hy, ?_, by omega⟩
        rw [show index + (j + 1) = index + 1 + j by omega]
        exact hcb
    | error e0 =>
      simp only [findFrom, hc]
      refine ⟨1, rfl, ?_⟩
      intro e he
      cases he
      exact ⟨0, x, by simp, by rw [Nat.add_zero]; exact hc, rfl⟩

/-- Same characterization for `reduceFrom`, for every initial accumulator. -/
theorem reduceFrom_spec (callback : γ → α → Nat → Except ε γ) :
    ∀ (l : List α) (index : Nat) (accumulator : γ),
      ∃ n, (reduceFrom callback l index accumulator).1 = List.range' index n
        ∧ ∀ e, (reduceFrom callback l index accumulator).2 = Except.error e →
            ∃ j a x, l[j]? = some x ∧ callback a x (index + j) = Except.error e ∧ n = j + 1 := by
  intro l
  induction l with
  | nil =>
    intro index accumulator
    exact ⟨0, rfl, fun e h => by simp [reduceFrom] at h⟩
  | cons x rest ih =>
    intro index accumulator
    cases hc : callback accumulator x index with
    | ok v =>
      simp only [reduceFrom, hc]
      obtain ⟨n, hlog, herr⟩ := ih (index + 1) v
      refine ⟨n + 1, by rw [show List.range' index (n + 1) = index :: List.range' (index + 1) n from rfl, hlog], ?_⟩
      intro e he
      obtain ⟨j, a, y, hy, hcb, hn⟩ := herr e he
      refine ⟨j + 1, a, y, by simpa using hy, ?_, by omega⟩
      rw [show index + (j + 1) = index + 1 + j by omega]
      exact hcb
    | error e0 =>
      simp only [reduceFrom, hc]
      refine ⟨1, rfl, ?_⟩
      intro e he
      cases he
      exact ⟨0, accumulator, x, by simp, by rw [Nat.add_zero]; exact hc, rfl⟩

/-- The invocation log is `0, 1, 2, …`: the callback is invoked strictly in
index order, one element at a time. -/
def InvokedInOrder (r : List Nat × Except ε ρ) : Prop :=
  r.1 = List.range r.1.length

/-- A rejected outcome comes from the callback invocation at the last logged
index `k`, and no index greater than `k` was ever invoked. -/
def RejectsShortCircuit (r : List Nat × Except ε ρ) (errAt : Nat → ε → Prop) : Prop :=
  ∀ e, r.2 = Except.error e →
    ∃ k, errAt k e ∧ r.1 = List.range (k + 1) ∧ ∀ j, k < j → j ∉ r.1

theorem shortCircuit_of_spec {r : List Nat × Except ε ρ} {errAt : Nat → ε → Prop}
    (h : ∃ n, r.1 = List.range' 0 n
      ∧ ∀ e, r.2 = Except.error e → ∃ j, errAt j e ∧ n = j + 1) :
    InvokedInOrder r ∧ RejectsShortCircuit r errAt := by
  obtain ⟨n, hlog, herr⟩ := h
  constructor
  · exact log_eq_range_of_range0 ⟨n, hlog⟩
  · intro e he
    obtain ⟨j, hj, hn⟩ := herr e he
    refine ⟨j, hj, ?_, ?_⟩
    · rw [hlog, hn, ← List.range_eq_range']
    · intro j2 hj2
      rw [hlog, hn, ← List.range_eq_range']
      exact not_mem_range_succ_of_lt hj2

/-- C3: each sequential helper (`forEachPromise`, `mapPromise`,
`findPromise`, `reducePromise`) invokes its callback strictly in index order
— the invocation log is exactly `0, 1, …` — and when the callback at index
`k` rejects, the helper rejects with that same error, the log ends exactly
at `k`, and the callback is never invoked at any index greater than `k`. -/
theorem seqHelpers_index_order_and_short_circuit
    (arr : List α) (cbF : α → Nat → Except ε β) (cbM : α → Nat → Except ε β')
    (cbFind : α → Nat → Except ε Bool) (cbR : γ → α → Nat → Except ε γ) (init : γ) :
    (InvokedInOrder (forEachPromise arr cbF)
      ∧ RejectsShortCircuit (forEachPromise arr cbF)
          (fun k e => ∃ x, arr[k]? = some x ∧ cbF x k = Except.error e))
    ∧ (InvokedInOrder (mapPromise arr cbM)
      ∧ RejectsShortCircuit (mapPromise arr cbM)
          (fun k e => ∃ x, arr[k]? = some x ∧ cbM x k = Except.error e))
    ∧ (InvokedInOrder (findPromise arr cbFind)
      ∧ RejectsShortCircuit (findPromise arr cbFind)
          (fun k e => ∃ x, arr[k]? = some x ∧ cbFind x k = Except.error e))
    ∧ (InvokedInOrder (reducePromise arr cbR init)
      ∧ RejectsShortCircuit (reducePromise arr cbR init)
          (fun k e => ∃ a x, arr[k]? = some x ∧ cbR a x k = Except.error e)) := by
  have h1 : InvokedInOrder (forEachPromise arr cbF)
      ∧ RejectsShortCircuit (forEachPromise arr cbF)
          (fun k e => ∃ x, arr[k]? = some x ∧ cbF x k = Except.error e) := by
    apply shortCircuit_of_spec
    obtain ⟨n, hlog, herr⟩ := forEachFrom_spec cbF arr 0
    refine ⟨n, hlog, ?_⟩
    intro e he
    obtain ⟨j, x, hx, hcb, hn⟩ := herr e he
    exact ⟨j, ⟨x, hx, by simpa using hcb⟩, hn⟩
  have h2 : InvokedInOrder (mapPromise arr cbM)
      ∧ RejectsShortCircuit (mapPromise arr cbM)
          (fun k e => ∃ x, arr[k]? = some x ∧ cbM x k = Except.error e) := by
    apply shortCircuit_of_spec
    obtain ⟨n, hlog, herr⟩ := mapFrom_spec cbM arr 0
    refine ⟨n, hlog, ?_⟩
    intro e he
    obtain ⟨j, x, hx, hcb, hn⟩ := herr e he
    exact ⟨j, ⟨x, hx, by simpa using hcb⟩, hn⟩
  have h3 : InvokedInOrder (findPromise arr cbFind)
      ∧ RejectsShortCircuit (findPromise arr cbFind)
          (fun k e => ∃ x, arr[k]? = some x ∧ cbFind x k = Except.error e) := by
    apply shortCircuit_of_spec
    obtain ⟨n, hlog, herr⟩ := findFrom_spec cbFind arr 0
    refine ⟨n, hlog, ?_⟩
    intro e he
    obtain ⟨j, x, hx, hcb, hn⟩ := herr e he
    exact ⟨j, ⟨x, hx, by simpa using hcb⟩, hn⟩
  have h4 : InvokedInOrder (reducePromise arr cbR init)
      ∧ RejectsShortCircuit (reducePromise arr cbR init)
          (fun k e => ∃ a x, arr[k]? = some x ∧ cbR a x k = Except.error e) := by
    apply shortCircuit_of_spec
    obtain ⟨n, hlog, herr⟩ := reduceFrom_spec cbR arr 0 init
    refine ⟨n, hlog, ?_⟩
    intro e he
    obtain ⟨j, a, x, hx, hcb, hn⟩ := herr e he
    exact ⟨j, ⟨a, x, hx, by simpa using hcb⟩, hn⟩
  exact ⟨h1, h2, h3, h4⟩

/-- C8: on an empty sequence every helper resolves immediately with its
identity result — no value (`Unit.unit`), the empty list, the not-found
sentinel `none`, and the caller-supplied initial accumulator — and the
invocation log is empty: the callback is never invoked. -/
theorem seqHelpers_empty_identity (cbF : α → Nat → Except ε β)
    (cbM : α → Nat → Except ε β') (cbFind : α → Nat → Except ε Bool)
    (cbR : γ → α → Nat → Except ε γ) (init : γ) :
    forEachPromise ([] : List α) cbF = ([], Except.ok Unit.unit)
    ∧ mapPromise ([] : List α) cbM = ([], Except.ok [])
    ∧ findPromise ([] : List α) cbFind = ([], Except.ok none)
    ∧ reducePromise ([] : List α) cbR init = ([], Except.ok init) :=
  ⟨rfl, rfl, rfl, rfl⟩

theorem forEachFrom_all_ok (callback : α → Nat → Except ε β) :
    ∀ (l : List α) (index : Nat),
      (∀ j x, l[j]? = some x → ∃ r, callback x (index + j) = Except.ok r) →
      forEachFrom callback l index = (List.range' index l.length, Except.ok Unit.unit) := by
  intro l
  induction l with
  | nil => intro index _; rfl
  | cons x rest ih =>
    intro index h
    obtain ⟨r0, hr0⟩ := h 0 x (by simp)
    rw [Nat.add_zero] at hr0
    simp only [forEachFrom, hr0]
    have hrest := ih (index + 1) ?_
    · rw [hrest]
      rfl
    · intro j y hy
      obtain ⟨r1, hr1⟩ := h (j + 1) y (by simpa using hy)
      exact ⟨r1, by rw [show index + 1 + j = index + (j + 1) by omega]; exact hr1⟩

theorem forEachFromTS_all_ok (callback : α → Nat → Except ε β) (isFalseResult : β → Bool) :
    ∀ (l : List α) (index : Nat),
      (∀ j x, l[j]? = some x →
          ∃ r, callback x (index + j) = Except.ok r ∧ isFalseResult r = false) →
      forEachFromTS callback isFalseResult l index
        = (List.range' index l.length, Except.ok Unit.unit) := by
  intro l
  induction l with
  | nil => intro index _; rfl
  | cons x rest ih =>
    intro index h
    obtain ⟨r0, hr0, hf0⟩ := h 0 x (by simp)
    rw [Nat.add_zero] at hr0
    simp only [forEachFromTS, hr0, hf0, Bool.false_eq_true, if_false]
    have hrest := ih (index + 1) ?_
    · rw [hrest]
      rfl
    · intro j y hy
      obtain ⟨r1, hr1, hf1⟩ := h (j + 1) y (by simpa using hy)
      exact ⟨r1, by rw [show index + 1 + j = index + (j + 1) by omega]; exact hr1, hf1⟩

/-- C4 (amended): when every callback invocation resolves, the plain variant
of `forEachPromise` invokes the callback exactly once per element in index
order, discards the resolved values, and resolves with no value only once
all elements have been processed; the TypeScript variant does the same
provided no callback resolves with the value `false` (a `false` result
resolves the helper early, skipping the remaining elements). -/
theorem forEachPromise_processes_all (arr : List α)
    (callback : α → Nat → Except ε β) (callbackTS : α → Nat → Except ε β')
    (isFalseResult : β' → Bool)
    (hok : ∀ j x, arr[j]? = some x → ∃ r, callback x j = Except.ok r)
    (hokTS : ∀ j x, arr[j]? = some x →
        ∃ r, callbackTS x j = Except.ok r ∧ isFalseResult r = false) :
    forEachPromise arr callback = (List.range arr.length, Except.ok Unit.unit)
    ∧ forEachPromiseTS arr callbackTS isFalseResult
        = (List.range arr.length, Except.ok Unit.unit) := by
  constructor
  · rw [forEachPromise, forEachFrom_all_ok callback arr 0
      (by intro j x hx; simpa using hok j x hx), List.range_eq_range']
  · rw [forEachPromiseTS, forEachFromTS_all_ok callbackTS
      isFalseResult arr 0 (by intro j x hx; simpa using hokTS j x hx), List.range_eq_range']

def witnessArray : List Nat := [10, 20]

def alwaysOk : Nat → Nat → Except Unit Nat := fun x _ => Except.ok x

def alwaysTrue : Nat → Nat → Except Unit Bool := fun _ _ => Except.ok true

/-- Witness for C4's theorem at a concrete input: a two-element array with
callbacks that always resolve (and never resolve `false`). -/
theorem forEachPromise_processes_all_witness :
    forEachPromise witnessArray alwaysOk = (List.range 2, Except.ok Unit.unit)
    ∧ forEachPromiseTS witnessArray alwaysTrue (fun b => !b)
        = (List.range 2, Except.ok Unit.unit) :=
  forEachPromise_processes_all witnessArray alwaysOk alwaysTrue (fun b => !b)
    (fun _ x _ => ⟨x, rfl⟩) (fun _ _ _ => ⟨true, rfl, rfl⟩)

def alwaysFalse : Nat → Nat → Except Unit Bool := fun _ _ => Except.ok false

/-- Counterexample to C4 as stated: on `[1, 2, 3]` with a callback whose
promises all resolve (with the value `false`), the TypeScript variant of
`forEachPromise` (cited at `src/index.js` lines 270–292) invokes the
callback only at index 0 — not exactly once per element — because a
callback resolving `false` resolves the helper early. -/
theorem forEachPromiseTS_false_break_counterexample :
    forEachPromiseTS [1, 2, 3] alwaysFalse (fun b => !b) = ([0], Except.ok Unit.unit)
    ∧ [0] ≠ List.range 3
    ∧ alwaysFalse 1 0 = Except.ok false :=
  ⟨rfl, by decide, rfl⟩

/-! ## TaskQueue (task-queue.js)

Two models cover the two claims about the queue.

For a queue constructed with only a concurrency `limit` (no `interval`),
the constructor rebinds `_runTask` to `_runTaskLimit` wrapping the base
`_runTask`.  The base `_runTask` shifts the queue head, increments
`runCount`, starts the task, and synchronously calls `_executeNextTask()`
again; `_executeNextTask` returns when the queue is empty and otherwise
calls the (gated) `_runTask`.  `drainTaskQueue` renders that synchronous
recursion: it keeps dequeueing and starting heads while `runCount < limit`.
Tasks are identified by their numeric tags; `running` is the multiset of
currently running tags, `started` the log of starts in order.  The fields
`lastRunTime`/`timeout` that the base `_runTask` also touches drive only
the interval gate, which is not installed in this configuration, and are
omitted from this model (they are carried by the second model below).

The externally driven transitions are task submission (`addTask`: push to
the tail, then `_executeNextTask`) and the settlement of a running task
(the `.then` continuation of `task.run()`: decrement `runCount`, then
`_executeNextTask`). -/

structure LimitQueueState where
  runCount : Nat
  taskQueue : List Nat
  running : List Nat
  started : List Nat
deriving DecidableEq

/-- The synchronous start loop of a limit-only queue: `_executeNextTask`
composed with `_runTaskLimit` around the base `_runTask` (which recursively
calls `_executeNextTask` after starting the dequeued task). -/
def drainTaskQueue (limit : Nat) : Nat → List Nat → List Nat → List Nat → LimitQueueState
  | runCount, [], running, started => ⟨runCount, [], running, started⟩
  | runCount, t :: rest, running, started =>
    if runCount < limit then
      drainTaskQueue limit (runCount + 1) rest (running ++ [t]) (started ++ [t])
    else ⟨runCount, t :: rest, running, started⟩

/-- `_executeNextTask` on a limit-only queue. -/
def executeNextTaskLimit (limit : Nat) (s : LimitQueueState) : LimitQueueState :=
  drainTaskQueue limit s.runCount s.taskQueue s.running s.started

/-- An externally visible queue event: submitting a task with a given tag,
or the settlement (resolution or rejection) of a running task. -/
inductive QueueEvent where
  | add (tag : Nat)
  | settle (tag : Nat)
deriving DecidableEq

/-- One transition of a limit-only queue.  `addTask` pushes the new task to
the tail and attempts to start the head; a settlement decrements `runCount`
and attempts to start the head.  A settle event whose tag is not running is
a no-op (the code only settles tasks it started). -/
def queueStep (limit : Nat) (s : LimitQueueState) : QueueEvent → LimitQueueState
  | QueueEvent.add t =>
    executeNextTaskLimit limit
      { s with taskQueue := s.taskQueue ++ [t] }
  | QueueEvent.settle t =>
    if t ∈ s.running then
      executeNextTaskLimit limit
        { s with runCount := s.runCount - 1, running := s.running.erase t }
    else s

/-- A freshly constructed queue: nothing queued, nothing running. -/
def initQueue : LimitQueueState := ⟨0, [], [], []⟩

/-- The queue state after a sequence of externally driven events. -/
def queueRun (limit : Nat) (events : List QueueEvent) : LimitQueueState :=
  events.foldl (queueStep limit) initQueue

/-- The tags submitted by a sequence of events, in submission order. -/
def submittedTags (events : List QueueEvent) : List Nat :=
  events.filterMap (fun e => match e with
    | QueueEvent.add t => some t
    | QueueEvent.settle _ => none)

theorem drainTaskQueue_spec (limit : Nat) :
    ∀ (queue : List Nat) (runCount : Nat) (running started : List Nat),
      runCount ≤ limit → runCount = running.length →
      ((drainTaskQueue limit runCount queue running started).runCount ≤ limit
        ∧ (drainTaskQueue limit runCount queue running started).runCount
            = (drainTaskQueue limit runCount queue running started).running.length
        ∧ (drainTaskQueue limit runCount queue running started).started
              ++ (drainTaskQueue limit runCount queue running started).taskQueue
            = started ++ queue) := by
  intro queue
  induction queue with
  | nil =>
    intro runCount running started h1 h2
    exact ⟨h1, h2, by simp [drainTaskQueue]⟩
  | cons t rest ih =>
    intro runCount running started h1 h2
    by_cases hlt : runCount < limit
    · simp only [drainTaskQueue, if_pos hlt]
      have h3 := ih (runCount + 1) (running ++ [t]) (started ++ [t]) hlt (by simp [h2])
      refine ⟨h3.1, h3.2.1, ?_⟩
      rw [h3.2.2]
      simp
    · simp only [drainTaskQueue, if_neg hlt]
      exact ⟨h1, h2, trivial⟩

/-- The safety invariant of a limit-only queue: the running count is within
the limit, it counts the running tasks, and the start log followed by the
still-pending queue is exactly the submission order. -/
def QueueInvariant (limit : Nat) (s : LimitQueueState) (submitted : List Nat) : Prop :=
  s.runCount ≤ limit ∧ s.runCount = s.running.length
    ∧ s.started ++ s.taskQueue = submitted

theorem submittedTags_cons (e : QueueEvent) (rest : List QueueEvent) :
    submittedTags (e :: rest) = submittedTags [e] ++ submittedTags rest := by
  cases e <;> simp [submittedTags]

theorem queueStep_invariant (limit : Nat) (s : LimitQueueState) (e : QueueEvent)
    (submitted : List Nat) (h : QueueInvariant limit s submitted) :
    QueueInvariant limit (queueStep limit s e)
      (submitted ++ submittedTags [e]) := by
  obtain ⟨h1, h2, h3⟩ := h
  cases e with
  | add t =>
    have h4 := drainTaskQueue_spec limit (s.taskQueue ++ [t]) s.runCount s.running s.started h1 h2
    simp only [queueStep, executeNextTaskLimit]
    refine ⟨h4.1, h4.2.1, ?_⟩
    rw [h4.2.2, ← List.append_assoc, h3]
    simp [submittedTags]
  | settle t =>
    by_cases hmem : t ∈ s.running
    · have hlen : (s.running.erase t).length = s.running.length - 1 :=
        List.length_erase_of_mem hmem
      have h4 := drainTaskQueue_spec limit s.taskQueue (s.runCount - 1)
        (s.running.erase t) s.started (by omega) (by rw [hlen, h2])
      refine ⟨?_, ?_, ?_⟩
      · simpa [queueStep, hmem, executeNextTaskLimit] using h4.1
      · simpa [queueStep, hmem, executeNextTaskLimit] using h4.2.1
      · have h5 := h4.2.2
        simp only [queueStep, if_pos hmem]
        simp [submittedTags, executeNextTaskLimit]
        rw [show ({ s with runCount := s.runCount - 1, running := s.running.erase t} : LimitQueueState).taskQueue = s.taskQueue from rfl] at *
        rw [h5, h3]
    · simp only [queueStep, if_neg hmem]
      exact ⟨h1, h2, by simpa [submittedTags] using h3⟩

/-- C1: for a `TaskQueue` constructed with a concurrency limit and no
interval, after any sequence of submissions and settlements the number of
currently running tasks never exceeds the limit, `runCount` counts exactly
the running tasks, and the start log followed by the still-queued tasks is
exactly the submission order — so queued tasks blocked by the concurrency
gate always start in FIFO submission order as running tasks settle. -/
theorem taskQueue_limit_invariant (limit : Nat) (events : List QueueEvent) :
    (queueRun limit events).running.length ≤ limit
    ∧ (queueRun limit events).runCount = (queueRun limit events).running.length
    ∧ (queueRun limit events).started ++ (queueRun limit events).taskQueue
        = submittedTags events := by
  have main : ∀ (evs : List QueueEvent) (s : LimitQueueState) (submitted : List Nat),
      QueueInvariant limit s submitted →
      QueueInvariant limit (evs.foldl (queueStep limit) s)
        (submitted ++ submittedTags evs) := by
    intro evs
    induction evs with
    | nil => intro s submitted h; simpa [submittedTags] using h
    | cons e rest ih =>
      intro s submitted h
      have h1 := queueStep_invariant limit s e submitted h
      have h2 := ih (queueStep limit s e) (submitted ++ submittedTags [e]) h1
      rw [List.foldl_cons, submittedTags_cons, ← List.append_assoc]
      exact h2
  have h0 : QueueInvariant limit initQueue [] := ⟨Nat.zero_le limit, rfl, rfl⟩
  have h := main events initQueue [] h0
  obtain ⟨h1, h2, h3⟩ := h
  exact ⟨h2 ▸ h1, h2, by simpa using h3⟩

/-! ### TaskQueue with both a concurrency limit and a minimum interval

The constructor installs the gates by rebinding `_runTask`:

    if (this.interval) this._runTask = this._runTaskInterval.bind(this, this._runTask.bind(this));
    if (this.limit)    this._runTask = this._runTaskLimit.bind(this, this._runTask.bind(this));

With both options set, the interval gate wraps the base `_runTask` first
and the limit gate wraps the result, so a call to the composed `_runTask`
reaches `_runTaskLimit` first.  The model below renders one start attempt
(`_executeNextTask` followed by one call of the composed `_runTask`) as a
function on the queue state; each gate is a higher-order function taking
the continuation it was bound to, exactly as in the source.  Time is an
abstract millisecond clock: `now` is the current instant,
`lastRunTime`/`timeout` are the corresponding fields
(`process.hrtime`-based in the source), and `diffMs` becomes `now - last`. -/

structure TaskQueueState where
  limit : Nat
  interval : Nat
  runCount : Nat
  now : Nat
  lastRunTime : Option Nat
  timeout : Option Nat
  taskQueue : List Nat
  started : List Nat
deriving DecidableEq

/-- The base `_runTask` as far as one start attempt is concerned: shift the
queue head, clear any pending timer, increment `runCount`, record the start
time and start the task (logged in `started`).  The trailing
`_executeNextTask()` of the source is a further start attempt. -/
def runTaskBase (s : TaskQueueState) : TaskQueueState :=
  match s.taskQueue with
  | [] => s
  | t :: rest =>
    { s with taskQueue := rest, timeout := none, runCount := s.runCount + 1,
             lastRunTime := some s.now, started := s.started ++ [t] }

/-- `_runTaskLimit(runTask)`: run the continuation only while fewer than
`limit` tasks are running. -/
def runTaskLimitGate (runTask : TaskQueueState → TaskQueueState)
    (s : TaskQueueState) : TaskQueueState :=
  if s.runCount < s.limit then runTask s else s

/-- `_runTaskInterval(runTask)`: run the continuation immediately when no
task ever ran; do nothing while a timer is pending; otherwise run when the
elapsed time reached the interval, else arm a one-shot timer for the
remaining wait. -/
def runTaskIntervalGate (runTask : TaskQueueState → TaskQueueState)
    (s : TaskQueueState) : TaskQueueState :=
  match s.lastRunTime with
  | none => runTask s
  | some last =>
    match s.timeout with
    | some _ => s
    | none =>
      if s.interval ≤ s.now - last then runTask s
      else { s with timeout := some (s.now + (s.interval - (s.now - last))) }

/-- One start attempt of a queue constructed with both `limit` and
`interval`: `_executeNextTask` returns on an empty queue and otherwise
calls the composed `_runTask`, which per the constructor is the limit gate
wrapping the interval gate wrapping the base `_runTask`. -/
def executeNextTask (s : TaskQueueState) : TaskQueueState :=
  if s.taskQueue.isEmpty then s
  else runTaskLimitGate (runTaskIntervalGate runTaskBase) s

/-- Modelled from the spec: "when combined, the interval gate is evaluated
first, then the concurrency gate".  The same gates composed in the order
the spec describes, for comparison with `executeNextTask`. -/
def executeNextTaskSpecOrder (s : TaskQueueState) : TaskQueueState :=
  if s.taskQueue.isEmpty then s
  else runTaskIntervalGate (runTaskLimitGate runTaskBase) s

/-- The condition under which the interval gate lets a start attempt pass
right now: no task ever ran, or no timer is pending and the elapsed time
since the last start reached the interval. -/
def intervalGatePasses (s : TaskQueueState) : Bool :=
  match s.lastRunTime with
  | none => true
  | some last => s.timeout = none && s.interval ≤ s.now - last

/-- A state in which the evaluation order of the two gates is observable:
one task is running (`runCount = limit = 1`), the last start was more
recent than the interval, no timer is pending and a task is queued. -/
def gateOrderState : TaskQueueState :=
  { limit := 1, interval := 100, runCount := 1, now := 50, lastRunTime := some 0,
    timeout := none, taskQueue := [7], started := [] }

/-- Counterexample to C2 as stated: the code evaluates the concurrency gate
first, not the interval gate.  At `gateOrderState` the code's start attempt
is stopped by the concurrency gate and leaves the state untouched — in
particular no timer is armed — while the spec's interval-first composition
would arm a one-shot timer for the remaining 50ms wait. -/
theorem taskQueue_gate_order_counterexample :
    executeNextTask gateOrderState = gateOrderState
    ∧ executeNextTaskSpecOrder gateOrderState ≠ executeNextTask gateOrderState
    ∧ (executeNextTask gateOrderState).timeout = none
    ∧ (executeNextTaskSpecOrder gateOrderState).timeout = some 100 := by
  refine ⟨rfl, ?_, rfl, rfl⟩
  intro h
  have h2 := congrArg TaskQueueState.timeout h
  simp [executeNextTask, executeNextTaskSpecOrder, gateOrderState,
    runTaskLimitGate, runTaskIntervalGate, runTaskBase] at h2

/-- C2 (amended): in a queue constructed with both a concurrency limit and
a minimum interval, a queued job is started by a start attempt exactly when
both gates pass, but the concurrency gate is evaluated first and the
interval gate second (the constructor wraps the interval gate inside the
limit gate): an attempt blocked by the concurrency gate leaves the state
unchanged without consulting the interval gate, so it arms no timer. -/
theorem taskQueue_both_gates_amended (s : TaskQueueState) :
    ((executeNextTask s).started ≠ s.started ↔
      (s.taskQueue ≠ [] ∧ s.runCount < s.limit ∧ intervalGatePasses s = true))
    ∧ (s.limit ≤ s.runCount → executeNextTask s = s) := by
  constructor
  · constructor
    · intro hne
      by_cases hq : s.taskQueue.isEmpty
      · rw [executeNextTask, if_pos hq] at hne
        exact absurd rfl hne
      · refine ⟨by simpa using hq, ?_⟩
        rw [executeNextTask, if_neg hq, runTaskLimitGate] at hne
        by_cases hlim : s.runCount < s.limit
        · refine ⟨hlim, ?_⟩
          rw [if_pos hlim] at hne
          cases hlast : s.lastRunTime with
          | none => simp [intervalGatePasses, hlast]
          | some last =>
            cases hto : s.timeout with
            | some w =>
              exfalso
              simp only [runTaskIntervalGate, hlast, hto] at hne
              exact hne rfl
            | none =>
              by_cases hiv : s.interval ≤ s.now - last
              · simp [intervalGatePasses, hlast, hto, hiv]
              · exfalso
                simp only [runTaskIntervalGate, hlast, hto, if_neg hiv] at hne
                exact hne rfl
        · rw [if_neg hlim] at hne
          exact absurd rfl hne
    · rintro ⟨hq, hlim, hiv⟩
      have hq2 : s.taskQueue.isEmpty = false := by
        cases hq3 : s.taskQueue with
        | nil => exact absurd hq3 hq
        | cons t rest => rfl
      simp only [executeNextTask, hq2, Bool.false_eq_true, if_false,
        runTaskLimitGate, if_pos hlim]
      have hbase : (runTaskBase s).started ≠ s.started := by
        cases hq3 : s.taskQueue with
        | nil => exact absurd hq3 hq
        | cons t rest =>
          simp only [runTaskBase, hq3]
          intro hcontra
          have := congrArg List.length hcontra
          simp at this
      cases hlast : s.lastRunTime with
      | none =>
        simp only [runTaskIntervalGate, hlast]
        exact hbase
      | some last =>
        rw [intervalGatePasses, hlast] at hiv
        have hto : s.timeout = none := by
          cases htz : s.timeout with
          | none => rfl
          | some w => rw [htz] at hiv; simp at hiv
        have hwait : s.interval ≤ s.now - last := by
          rw [hto] at hiv
          simpa using hiv
        simp only [runTaskIntervalGate, hlast, hto, if_pos hwait]
        exact hbase
  · intro hge
    rw [executeNextTask]
    by_cases hq : s.taskQueue.isEmpty
    · rw [if_pos hq]
    · rw [if_neg hq, runTaskLimitGate, if_neg (by omega)]

/-! ## JSON-like values and lodash-style path addressing (object-utils)

`JVal` models the JavaScript values the object utilities operate on: plain
objects are ordered string-keyed field lists, arrays are ordered element
lists, and `undef` is JavaScript's `undefined` (also standing for the holes
of sparse arrays that `_.set` creates internally).  A lodash path is the
parsed key list (`_.toPath` output): string keys and numeric indices.  A
numeric key addresses object property `String(n)`; a string key addresses
an array element when it is the canonical decimal form of an index (lodash
`isIndex`/`toKey`).  Array-valued extra string properties (for example
`_.set(arr, 'foo', v)`, which JavaScript attaches to the array object) are
outside this value model; `setKey` leaves the array unchanged there. -/

inductive JKey where
  | str (s : String)
  | idx (n : Nat)

inductive JVal where
  | undef : JVal
  | null : JVal
  | bool (b : Bool) : JVal
  | num (n : Int) : JVal
  | str (s : String) : JVal
  | arr (elems : List JVal) : JVal
  | obj (fields : List (String × JVal)) : JVal

/-- `_.isPlainObject(value) || _.isArray(value)` — the composite values. -/
def JVal.isContainer : JVal → Bool
  | JVal.arr _ => true
  | JVal.obj _ => true
  | _ => false

/-- The object property name a path key addresses (lodash `toKey`). -/
def keyToName : JKey → String
  | JKey.str s => s
  | JKey.idx n => Nat.repr n

/-- The array index a path key addresses, when it is one (lodash
`isIndex`): a numeric key, or a string key in canonical decimal form. -/
def keyToIdx : JKey → Option Nat
  | JKey.idx n => some n
  | JKey.str s =>
    match s.toNat? with
    | some n => if Nat.repr n = s then some n else none
    | none => none

/-- Assoc-list lookup of an object field, first binding wins. -/
def lookupField : List (String × JVal) → String → Option JVal
  | [], _ => none
  | (k, v) :: rest, name => if k = name then some v else lookupField rest name

/-- Assoc-list update of an object field: overwrite in place, or append a
new binding (JavaScript property insertion order). -/
def setField : List (String × JVal) → String → JVal → List (String × JVal)
  | [], name, x => [(name, x)]
  | (k, v) :: rest, name, x =>
    if k = name then (k, x) :: rest else (k, v) :: setField rest name x

/-- Array element assignment, padding a too-short array with `undef` holes
the way `_.set` leaves JavaScript sparse-array holes. -/
def setIdx : List JVal → Nat → JVal → List JVal
  | [], 0, x => [x]
  | [], n + 1, x => JVal.undef :: setIdx [] n x
  | _ :: rest, 0, x => x :: rest
  | v :: rest, n + 1, x => v :: setIdx rest n x

/-- One step of `object[key]` as `_.get` walks a path. -/
def getKey : JVal → JKey → JVal
  | JVal.obj fields, k => (lookupField fields (keyToName k)).getD JVal.undef
  | JVal.arr elems, k =>
    match keyToIdx k with
    | some n => elems.getD n JVal.undef
    | none => JVal.undef
  | _, _ => JVal.undef

/-- One step of the `_.has` check: own property of an object, or in-bounds
index of an array; always false on non-containers. -/
def hasKey : JVal → JKey → Bool
  | JVal.obj fields, k => (lookupField fields (keyToName k)).isSome
  | JVal.arr elems, k =>
    match keyToIdx k with
    | some n => n < elems.length
    | none => false
  | _, _ => false

/-- One step of the `_.set` walk: assign under a key of a container; a
non-container target is left unchanged (`baseSet` returns a non-object
root as is, and the unrepresentable array string-property case is a
no-op here). -/
def setKey : JVal → JKey → JVal → JVal
  | JVal.obj fields, k, x => JVal.obj (setField fields (keyToName k) x)
  | JVal.arr elems, k, x =>
    match keyToIdx k with
    | some n => JVal.arr (setIdx elems n x)
    | none => JVal.arr elems
  | v, _, _ => v

/-- `_.has(object, path)`: every prefix resolves to a present key.  lodash
returns false for the empty path. -/
def hasPath : JVal → List JKey → Bool
  | _, [] => false
  | v, [k] => hasKey v k
  | v, k :: rest => hasKey v k && hasPath (getKey v k) rest

/-- The walk of `_.get` over a non-empty path. -/
def getPathAux : JVal → List JKey → JVal
  | v, [] => v
  | v, k :: rest => getPathAux (getKey v k) rest

/-- `_.get(object, path)`: walk the path, `undefined` when it falls off a
non-container; lodash returns `undefined` for the empty path. -/
def getPath (v : JVal) (p : List JKey) : JVal :=
  match p with
  | [] => JVal.undef
  | _ => getPathAux v p

/-- Whether the next path key would make `_.set` create an array (`[]`)
rather than a plain object (`{}`) for a missing intermediate. -/
def nextKeyIsIndex : List JKey → Bool
  | k :: _ => (keyToIdx k).isSome
  | [] => false

/-- `_.set(object, path, value)` as a pure function: walk the path,
replacing non-container intermediates with a fresh `[]` or `{}` as lodash
`baseSet` does, and assign at the final key. -/
def setPath : JVal → List JKey → JVal → JVal
  | v, [], _ => v
  | v, k :: rest, x =>
    if v.isContainer then
      match rest with
      | [] => setKey v k x
      | _ =>
        let child := getKey v k
        let child2 := if child.isContainer then child
          else (if nextKeyIsIndex rest then JVal.arr [] else JVal.obj [])
        setKey v k (setPath child2 rest x)
    else v

/-- `copy(sourceObject, sourcePath, targetObject, targetPath, transform)`:
write the target path only when the source path is present, applying the
optional transform; pure rendering returns the new target. -/
def copy (sourceObject : JVal) (sourcePath : List JKey) (targetObject : JVal)
    (targetPath : List JKey) (transform : Option (JVal → JVal)) : JVal :=
  if hasPath sourceObject sourcePath then
    let value := getPath sourceObject sourcePath
    let value2 := match transform with
      | some f => f value
      | none => value
    setPath targetObject targetPath value2
  else targetObject

/-- `copyIfNotSet`: like `copy`, but a no-op when the target path is
already present. -/
def copyIfNotSet (sourceObject : JVal) (sourcePath : List JKey) (targetObject : JVal)
    (targetPath : List JKey) (transform : Option (JVal → JVal)) : JVal :=
  if hasPath targetObject targetPath then targetObject
  else copy sourceObject sourcePath targetObject targetPath transform

/-- `_.isUndefined`. -/
def isUndefined : JVal → Bool
  | JVal.undef => true
  | _ => false

/-- `getFirst(object, paths, defaultValue)`:
`_(object).at(paths).reject(_.isUndefined).first()`, then the default when
that is `undefined`.  `first()` of an empty collection is `undefined`. -/
def getFirst (object : JVal) (paths : List (List JKey)) (defaultValue : JVal) : JVal :=
  let result := (((paths.map (getPath object)).filter
    (fun v => !isUndefined v)).headD JVal.undef)
  if isUndefined result then defaultValue else result

/-! ### Algebra of `setPath` used for the `copyIfNotSet` idempotence -/

theorem setField_setField (fields : List (String × JVal)) (name : String) (x : JVal) :
    setField (setField fields name x) name x = setField fields name x := by
  induction fields with
  | nil => simp [setField]
  | cons kv rest ih =>
    obtain ⟨k, v⟩ := kv
    by_cases hk : k = name
    · simp [setField, hk]
    · simp [setField, hk, ih]

theorem setIdx_setIdx (elems : List JVal) (n : Nat) (x : JVal) :
    setIdx (setIdx elems n x) n x = setIdx elems n x := by
  induction n generalizing elems with
  | zero => cases elems <;> simp [setIdx]
  | succ n ih => cases elems <;> simp [setIdx, ih]

theorem setKey_setKey (v : JVal) (k : JKey) (x : JVal) :
    setKey (setKey v k x) k x = setKey v k x := by
  cases v with
  | obj fields => simp [setKey, setField_setField]
  | arr elems =>
    cases hk : keyToIdx k with
    | some n => simp [setKey, hk, setIdx_setIdx]
    | none => simp [setKey, hk]
  | undef => rfl
  | null => rfl
  | bool b => rfl
  | num n => rfl
  | str s => rfl

theorem isContainer_setKey (v : JVal) (k : JKey) (x : JVal)
    (h : v.isContainer = true) : (setKey v k x).isContainer = true := by
  cases v with
  | obj fields => rfl
  | arr elems =>
    cases hk : keyToIdx k with
    | some n => simp [setKey, hk, JVal.isContainer]
    | none => simp [setKey, hk, JVal.isContainer]
  | undef => exact h
  | null => exact h
  | bool b => exact h
  | num n => exact h
  | str s => exact h

theorem lookupField_setField (fields : List (String × JVal)) (name : String) (x : JVal) :
    lookupField (setField fields name x) name = some x := by
  induction fields with
  | nil => simp [setField, lookupField]
  | cons kv rest ih =>
    obtain ⟨k, v⟩ := kv
    by_cases hk : k = name
    · simp [setField, hk, lookupField]
    · simp [setField, hk, lookupField, ih]

theorem getElem_setIdx (elems : List JVal) (n : Nat) (x : JVal) :
    (setIdx elems n x)[n]? = some x := by
  induction n generalizing elems with
  | zero => cases elems <;> simp [setIdx]
  | succ n ih => cases elems <;> simp [setIdx, ih]

theorem getKey_setKey_obj (fields : List (String × JVal)) (k : JKey) (x : JVal) :
    getKey (setKey (JVal.obj fields) k x) k = x := by
  simp [setKey, getKey, lookupField_setField]

theorem getKey_setKey_arr (elems : List JVal) (k : JKey) (n : Nat) (x : JVal)
    (hk : keyToIdx k = some n) :
    getKey (setKey (JVal.arr elems) k x) k = x := by
  simp [setKey, getKey, hk, List.getD, getElem_setIdx]

theorem setPath_not_container (v : JVal) (k : JKey) (rest : List JKey) (x : JVal)
    (hv : v.isContainer = false) : setPath v (k :: rest) x = v := by
  simp [setPath, hv]

theorem setPath_cons_nil (v : JVal) (k : JKey) (x : JVal)
    (hv : v.isContainer = true) : setPath v [k] x = setKey v k x := by
  simp [setPath, hv]

theorem setPath_cons_cons (v : JVal) (k k2 : JKey) (r2 : List JKey) (x : JVal)
    (hv : v.isContainer = true) :
    setPath v (k :: k2 :: r2) x
      = setKey v k (setPath
          (if (getKey v k).isContainer then getKey v k
            else (if nextKeyIsIndex (k2 :: r2) then JVal.arr [] else JVal.obj []))
          (k2 :: r2) x) := by
  simp [setPath, hv]

theorem isContainer_setPath (v : JVal) (p : List JKey) (x : JVal)
    (h : v.isContainer = true) : (setPath v p x).isContainer = true := by
  cases p with
  | nil => exact h
  | cons k rest =>
    cases rest with
    | nil =>
      rw [setPath_cons_nil v k x h]
      exact isContainer_setKey v k x h
    | cons k2 r2 =>
      rw [setPath_cons_cons v k k2 r2 x h]
      exact isContainer_setKey v k _ h

theorem setPath_setPath (p : List JKey) : ∀ (v x : JVal),
    setPath (setPath v p x) p x = setPath v p x := by
  induction p with
  | nil => intro v x; rfl
  | cons k rest ih =>
    intro v x
    by_cases hv : v.isContainer = true
    · cases rest with
      | nil =>
        rw [setPath_cons_nil v k x hv,
          setPath_cons_nil (setKey v k x) k x (isContainer_setKey v k x hv),
          setKey_setKey]
      | cons k2 r2 =>
        cases v with
        | arr elems =>
          cases hk : keyToIdx k with
          | none =>
            have harr : ∀ (c : JVal), setKey (JVal.arr elems) k c = JVal.arr elems := by
              intro c
              simp [setKey, hk]
            rw [setPath_cons_cons (JVal.arr elems) k k2 r2 x hv, harr,
              setPath_cons_cons (JVal.arr elems) k k2 r2 x hv, harr]
          | some n =>
            rw [setPath_cons_cons (JVal.arr elems) k k2 r2 x hv]
            have hchild2 : (if (getKey (JVal.arr elems) k).isContainer then getKey (JVal.arr elems) k
                else (if nextKeyIsIndex (k2 :: r2) then JVal.arr [] else JVal.obj [])).isContainer = true := by
              by_cases hc : (getKey (JVal.arr elems) k).isContainer = true
              · simp [hc]
              · simp only [hc, Bool.false_eq_true, if_false]
                by_cases hn : nextKeyIsIndex (k2 :: r2) = true <;> simp [hn, JVal.isContainer]
            have hc1 : (setPath (if (getKey (JVal.arr elems) k).isContainer then getKey (JVal.arr elems) k
                else (if nextKeyIsIndex (k2 :: r2) then JVal.arr [] else JVal.obj [])) (k2 :: r2) x).isContainer = true :=
              isContainer_setPath _ _ _ hchild2
            rw [setPath_cons_cons _ k k2 r2 x (isContainer_setKey _ k _ hv),
              getKey_setKey_arr elems k n _ hk, if_pos hc1, ih, setKey_setKey]
        | obj fields =>
          rw [setPath_cons_cons (JVal.obj fields) k k2 r2 x hv]
          have hchild2 : (if (getKey (JVal.obj fields) k).isContainer then getKey (JVal.obj fields) k
              else (if nextKeyIsIndex (k2 :: r2) then JVal.arr [] else JVal.obj [])).isContainer = true := by
            by_cases hc : (getKey (JVal.obj fields) k).isContainer = true
            · simp [hc]
            · simp only [hc, Bool.false_eq_true, if_false]
              by_cases hn : nextKeyIsIndex (k2 :: r2) = true <;> simp [hn, JVal.isContainer]
          have hc1 : (setPath (if (getKey (JVal.obj fields) k).isContainer then getKey (JVal.obj fields) k
              else (if nextKeyIsIndex (k2 :: r2) then JVal.arr [] else JVal.obj [])) (k2 :: r2) x).isContainer = true :=
            isContainer_setPath _ _ _ hchild2
          rw [setPath_cons_cons _ k k2 r2 x (isContainer_setKey _ k _ hv),
            getKey_setKey_obj fields k _, if_pos hc1, ih, setKey_setKey]
        | undef => simp [JVal.isContainer] at hv
        | null => simp [JVal.isContainer] at hv
        | bool b => simp [JVal.isContainer] at hv
        | num n => simp [JVal.isContainer] at hv
        | str s => simp [JVal.isContainer] at hv
    · have hv2 : v.isContainer = false := by
        cases hvv : v.isContainer with
        | true => exact absurd hvv hv
        | false => rfl
      rw [setPath_not_container v k rest x hv2, setPath_not_container v k rest x hv2]

/-- The value `copy` writes: the source value, transformed when a
transform is supplied. -/
def copyValue (sourceObject : JVal) (sourcePath : List JKey)
    (transform : Option (JVal → JVal)) : JVal :=
  match transform with
  | some f => f (getPath sourceObject sourcePath)
  | none => getPath sourceObject sourcePath

theorem copy_of_hasPath {sourceObject : JVal} {sourcePath : List JKey}
    (targetObject : JVal) (targetPath : List JKey) (transform : Option (JVal → JVal))
    (h : hasPath sourceObject sourcePath = true) :
    copy sourceObject sourcePath targetObject targetPath transform
      = setPath targetObject targetPath (copyValue sourceObject sourcePath transform) := by
  simp [copy, copyValue, h]

theorem copy_of_not_hasPath {sourceObject : JVal} {sourcePath : List JKey}
    (targetObject : JVal) (targetPath : List JKey) (transform : Option (JVal → JVal))
    (h : hasPath sourceObject sourcePath = false) :
    copy sourceObject sourcePath targetObject targetPath transform = targetObject := by
  simp [copy, h]

theorem copyIfNotSet_of_hasPath {targetObject : JVal} {targetPath : List JKey}
    (sourceObject : JVal) (sourcePath : List JKey) (transform : Option (JVal → JVal))
    (h : hasPath targetObject targetPath = true) :
    copyIfNotSet sourceObject sourcePath targetObject targetPath transform
      = targetObject := by
  simp [copyIfNotSet, h]

theorem copyIfNotSet_of_not_hasPath {targetObject : JVal} {targetPath : List JKey}
    (sourceObject : JVal) (sourcePath : List JKey) (transform : Option (JVal → JVal))
    (h : hasPath targetObject targetPath = false) :
    copyIfNotSet sourceObject sourcePath targetObject targetPath transform
      = copy sourceObject sourcePath targetObject targetPath transform := by
  simp [copyIfNotSet, h]

/-- C9: `copyIfNotSet` is idempotent — applying it twice with the same
source object, source path, target path and pure transform yields the same
target as applying it once — and it is a no-op whenever the target path
already holds a present value. -/
theorem copyIfNotSet_idempotent (sourceObject : JVal) (sourcePath : List JKey)
    (targetObject : JVal) (targetPath : List JKey)
    (transform : Option (JVal → JVal)) :
    copyIfNotSet sourceObject sourcePath
        (copyIfNotSet sourceObject sourcePath targetObject targetPath transform)
        targetPath transform
      = copyIfNotSet sourceObject sourcePath targetObject targetPath transform
    ∧ (hasPath targetObject targetPath = true →
        copyIfNotSet sourceObject sourcePath targetObject targetPath transform
          = targetObject) := by
  constructor
  · cases ht : hasPath targetObject targetPath with
    | true =>
      rw [copyIfNotSet_of_hasPath sourceObject sourcePath transform ht,
        copyIfNotSet_of_hasPath sourceObject sourcePath transform ht]
    | false =>
      rw [copyIfNotSet_of_not_hasPath sourceObject sourcePath transform ht]
      cases hs : hasPath sourceObject sourcePath with
      | false =>
        rw [copy_of_not_hasPath targetObject targetPath transform hs,
          copyIfNotSet_of_not_hasPath sourceObject sourcePath transform ht,
          copy_of_not_hasPath targetObject targetPath transform hs]
      | true =>
        rw [copy_of_hasPath targetObject targetPath transform hs]
        cases h2 : hasPath (setPath targetObject targetPath
            (copyValue sourceObject sourcePath transform)) targetPath with
        | true =>
          rw [copyIfNotSet_of_hasPath sourceObject sourcePath transform h2]
        | false =>
          rw [copyIfNotSet_of_not_hasPath sourceObject sourcePath transform h2,
            copy_of_hasPath _ targetPath transform hs]
          exact setPath_setPath targetPath targetObject _
  · intro h
    rw [copyIfNotSet_of_hasPath sourceObject sourcePath transform h]

/-! ### `getFirst` returns the first path with a defined value -/

theorem head?_filter_eq_find (p : α → Bool) (l : List α) :
    (l.filter p).head? = l.find? p := by
  induction l with
  | nil => rfl
  | cons x rest ih =>
    by_cases hx : p x = true
    · simp [List.filter_cons, List.find?_cons, hx]
    · simp [List.filter_cons, List.find?_cons, hx, ih]

theorem getFirst_eq_find (object : JVal) (paths : List (List JKey))
    (defaultValue : JVal) :
    getFirst object paths defaultValue
      = ((paths.map (getPath object)).find?
          (fun v => !isUndefined v)).getD defaultValue := by
  rw [getFirst]
  generalize (paths.map (getPath object)) = l
  cases hf : l.find? (fun v => !isUndefined v) with
  | some v =>
    have hpv : isUndefined v = false := by
      have hp0 := List.find?_some hf
      simpa using hp0
    have hh : (l.filter (fun v => !isUndefined v)).head? = some v := by
      rw [head?_filter_eq_find]
      exact hf
    rw [List.headD_eq_head? _ _, hh]
    simp only [Option.getD_some]
    rw [hpv]
    rfl
  | none =>
    have hh : (l.filter (fun v => !isUndefined v)).head? = none := by
      rw [head?_filter_eq_find]
      exact hf
    rw [List.headD_eq_head? _ _, hh]
    simp [isUndefined]

/-- C10: `getFirst` returns the value at the first path of the list whose
resolution in the object is defined; when every path resolves to
`undefined` — in particular for an empty path list — it returns the
supplied default value (`undefined` when the caller omits it). -/
theorem getFirst_first_defined (object : JVal) (paths : List (List JKey))
    (defaultValue : JVal) :
    getFirst object paths defaultValue
      = ((paths.map (getPath object)).find?
          (fun v => !isUndefined v)).getD defaultValue
    ∧ ((∀ q ∈ paths, getPath object q = JVal.undef) →
        getFirst object paths defaultValue = defaultValue)
    ∧ getFirst object ([] : List (List JKey)) defaultValue = defaultValue := by
  refine ⟨getFirst_eq_find object paths defaultValue, ?_, rfl⟩
  intro hall
  have hnone : (paths.map (getPath object)).find? (fun v => !isUndefined v) = none := by
    rw [List.find?_eq_none]
    intro v hv
    obtain ⟨q, hq, hqv⟩ := List.mem_map.mp hv
    rw [← hqv, hall q hq]
    simp [isUndefined]
  rw [getFirst_eq_find object paths defaultValue, hnone]
  rfl

/-! ## Deep tree mapper (`mapDeep`)

`mapDeep` recursively transforms every node of a `JVal` tree.  In
pre-order (the default) the iteratee is applied to a node before its
children are visited, so the recursion descends into the children of the
value the iteratee returned; in post-order the children are mapped first
and the iteratee is applied last, so its return value is not traversed
further.  `keyPath` accumulates the key or index of each descent step and
`stack` the ancestor values (after the pre-order replacement, as in the
source's `_.concat(stack, [value])` placed after the pre-order call).

In JavaScript an iteratee that keeps wrapping values in new containers
recurses forever (pre-order descends into its own output), so the
embedding bounds the recursion with explicit fuel and returns `none` when
the fuel runs out; every claim below is about runs with sufficient fuel. -/

structure MapDeepOptions where
  iterateCollections : Bool := true
  iteratePrimitives : Bool := true
  postOrder : Bool := false

/-- The `childrenIterator` block of `_mapDeep`: map the children of a plain
object with `_.mapValues`, of an array with `_.map` (indices as keys), and
leave any other value untouched (a scalar has no children). -/
def mapDeepChildren (go : JVal → List JKey → List JVal → Option JVal)
    (value : JVal) (keyPath : List JKey) (stack : List JVal) : Option JVal :=
  match value with
  | JVal.obj fields =>
    (fields.mapM (fun kv =>
      (go kv.2 (keyPath ++ [JKey.str kv.1]) (stack ++ [JVal.obj fields])).map
        (fun w => (kv.1, w)))).map JVal.obj
  | JVal.arr elems =>
    (elems.enum.mapM (fun iv =>
      go iv.2 (keyPath ++ [JKey.idx iv.1]) (stack ++ [JVal.arr elems]))).map JVal.arr
  | v => some v

/-- `_mapDeep(value, keyPath, stack)`: decide whether the iteratee fires for
this node (composite vs primitive flag), apply it before the children in
pre-order or after them in post-order. -/
def mapDeepGo (iteratee : JVal → List JKey → List JVal → JVal)
    (opts : MapDeepOptions) :
    Nat → JVal → List JKey → List JVal → Option JVal
  | 0, _, _, _ => none
  | fuel + 1, value, keyPath, stack =>
    let invoke := if value.isContainer then opts.iterateCollections
      else opts.iteratePrimitives
    let value2 := if invoke && !opts.postOrder then iteratee value keyPath stack
      else value
    (mapDeepChildren (fun v kp st => mapDeepGo iteratee opts fuel v kp st)
        value2 keyPath stack).map
      (fun v => if invoke && opts.postOrder then iteratee v keyPath stack else v)

/-- `mapDeep(value, iteratee, options)` with explicit recursion fuel. -/
def mapDeep (value : JVal) (iteratee : JVal → List JKey → List JVal → JVal)
    (opts : MapDeepOptions) (fuel : Nat) : Option JVal :=
  mapDeepGo iteratee opts fuel value [] []

/-- The spec's example tree `{x: 1, y: [2, 3]}`. -/
def exampleTree : JVal :=
  JVal.obj [("x", JVal.num 1), ("y", JVal.arr [JVal.num 2, JVal.num 3])]

/-- The spec's composite-replacing iteratee: replaces any array with the
array `[99]` and multiplies any number by 10. -/
def replaceIteratee : JVal → List JKey → List JVal → JVal := fun v _ _ =>
  match v with
  | JVal.arr _ => JVal.arr [JVal.num 99]
  | JVal.num n => JVal.num (10 * n)
  | v => v

/-- C5: with the default options, `mapDeep` applies the iteratee to a node
before visiting children and recurses into the children of the value the
iteratee returned; with `postOrder`, children are mapped first and the
iteratee's return value is not traversed further.  On the spec's example,
pre-order therefore maps the replacement element `99` to `990`, while
post-order leaves the replacement array `[99]` untouched. -/
theorem mapDeep_preOrder_postOrder :
    (∀ (iteratee : JVal → List JKey → List JVal → JVal) (fuel : Nat)
        (value : JVal) (keyPath : List JKey) (stack : List JVal),
      mapDeepGo iteratee {} (fuel + 1) value keyPath stack
        = mapDeepChildren (fun v kp st => mapDeepGo iteratee {} fuel v kp st)
            (iteratee value keyPath stack) keyPath stack)
    ∧ (∀ (iteratee : JVal → List JKey → List JVal → JVal) (fuel : Nat)
        (value : JVal) (keyPath : List JKey) (stack : List JVal),
      mapDeepGo iteratee { postOrder := true } (fuel + 1) value keyPath stack
        = (mapDeepChildren
            (fun v kp st => mapDeepGo iteratee { postOrder := true } fuel v kp st)
            value keyPath stack).map
          (fun m => iteratee m keyPath stack))
    ∧ mapDeep exampleTree replaceIteratee {} 10
        = some (JVal.obj [("x", JVal.num 10), ("y", JVal.arr [JVal.num 990])])
    ∧ mapDeep exampleTree replaceIteratee { postOrder := true } 10
        = some (JVal.obj [("x", JVal.num 10), ("y", JVal.arr [JVal.num 99])]) := by
  refine ⟨?_, ?_, rfl, rfl⟩
  · intro iteratee fuel value keyPath stack
    simp [mapDeepGo, ite_self]
  · intro iteratee fuel value keyPath stack
    simp [mapDeepGo, ite_self]

/-! ## Frontmatter parsing (`parseMarkdownWithFrontMatter`)

The parser is modelled over `List Char` with JavaScript string semantics:
`startsWith`, `indexOf` (first occurrence), `substring`, the
single-occurrence `replace('\r\n', '\n')`, and the lazy regular expression
`/^\s*?(\n|$)/` (shortest run of whitespace followed by a newline — which
is consumed — or the end of the string).  The underlying YAML/TOML/JSON
codecs are external collaborators and are passed in as functions; the
frontmatter block between the delimiters is handed to the matching codec
verbatim. -/

/-- JavaScript `string.startsWith(pattern)`. -/
def strStartsWith : List Char → List Char → Bool
  | _, [] => true
  | [], _ :: _ => false
  | c :: s, p :: pat => c = p && strStartsWith s pat

/-- JavaScript `string.indexOf(pattern)`: index of the first occurrence. -/
def strFindIndex (pat : List Char) : List Char → Option Nat
  | [] => if strStartsWith [] pat then some 0 else none
  | c :: rest =>
    if strStartsWith (c :: rest) pat then some 0
    else (strFindIndex pat rest).map (fun i => i + 1)

/-- JavaScript `string.replace(pattern, rep)` with a string pattern:
replaces only the first occurrence, anywhere in the string. -/
def replaceFirst (s pat rep : List Char) : List Char :=
  match strFindIndex pat s with
  | some i => s.take i ++ rep ++ s.drop (i + pat.length)
  | none => s

/-- The character class `\s` of JavaScript regular expressions. -/
def isJsSpace (c : Char) : Bool :=
  c = ' ' || c = '\t' || c = '\n' || c = '\r'
    || c.toNat = 11 || c.toNat = 12 || c.toNat = 160 || c.toNat = 0x1680
    || (0x2000 ≤ c.toNat && c.toNat ≤ 0x200a)
    || c.toNat = 0x2028 || c.toNat = 0x2029 || c.toNat = 0x202f
    || c.toNat = 0x205f || c.toNat = 0x3000 || c.toNat = 0xfeff

/-- The lazy match `/^\s*?(\n|$)/`: the length of the shortest prefix of
whitespace ending in a consumed newline, or the whole string when it is all
whitespace up to its end; `none` when the regular expression fails. -/
def matchSpacesThenNewline : List Char → Option Nat
  | [] => some 0
  | c :: rest =>
    if c = '\n' then some 1
    else if isJsSpace c then (matchSpacesThenNewline rest).map (fun i => i + 1)
    else none

/-- One entry of the `frontMatterTypes` loop body: when the start delimiter
matches, the first occurrence of the end delimiter is found, and what
follows it is optional whitespace then a newline or the end of the string,
decode the text between the delimiters and take the rest as the body;
otherwise keep the accumulated result. -/
def tryFrontMatterType (startDelim endDelim : List Char) (parse : String → JVal)
    (s : List Char) (acc : JVal × List Char) : JVal × List Char :=
  if strStartsWith s startDelim then
    match strFindIndex endDelim s with
    | some index =>
      let endDelimEnd := index + endDelim.length
      let afterEndDelim := s.drop endDelimEnd
      match matchSpacesThenNewline afterEndDelim with
      | some matchLen =>
        (parse (String.mk ((s.take index).drop startDelim.length)),
          afterEndDelim.drop matchLen)
      | none => acc
    | none => acc
  else acc

/-- `parseMarkdownWithFrontMatter(string)`: normalize the first `\r\n`,
then try the YAML (`---`/`---`), TOML (`+++`/`+++`) and JSON (literal
brace-line) delimiter styles in order over the normalized string, starting
from a null frontmatter and the whole text as body. -/
def parseMarkdownWithFrontMatter (yamlParse tomlParse jsonParse : String → JVal)
    (string : String) : JVal × String :=
  let s := replaceFirst string.data "\r\n".data "\n".data
  let r0 := (JVal.null, s)
  let r1 := tryFrontMatterType "---\n".data "\n---".data yamlParse s r0
  let r2 := tryFrontMatterType "+++\n".data "\n+++".data tomlParse s r1
  let r3 := tryFrontMatterType "\x7b\n".data "\n\x7d".data jsonParse s r2
  (r3.1, String.mk r3.2)

/-- Whether one delimiter style matches: start delimiter at the start, end
delimiter found, and the end delimiter followed by optional whitespace then
newline-or-end. -/
def fmTypeMatches (startDelim endDelim : List Char) (s : List Char) : Bool :=
  strStartsWith s startDelim &&
    (match strFindIndex endDelim s with
      | some index =>
        (matchSpacesThenNewline (s.drop (index + endDelim.length))).isSome
      | none => false)

theorem tryFrontMatterType_not_matching (startDelim endDelim : List Char)
    (parse : String → JVal) (s : List Char) (acc : JVal × List Char)
    (h : fmTypeMatches startDelim endDelim s = false) :
    tryFrontMatterType startDelim endDelim parse s acc = acc := by
  rw [tryFrontMatterType]
  cases hs : strStartsWith s startDelim with
  | false => rw [if_neg (by simp [hs])]
  | true =>
    rw [fmTypeMatches, hs, Bool.true_and] at h
    rw [if_pos rfl]
    cases hf : strFindIndex endDelim s with
    | none => rfl
    | some index =>
      rw [hf] at h
      dsimp only at h ⊢
      cases hm : matchSpacesThenNewline (List.drop (index + endDelim.length) s) with
      | none => rfl
      | some matchLen =>
        rw [hm] at h
        simp at h

/-- The pure string computation on the spec's example input: only the YAML
style matches, the substring "title: Hi" between the delimiters goes to the
YAML codec, the lazy whitespace match after the closing `---` consumes
exactly the first newline, and the body keeps the second one. -/
theorem parseMarkdown_example_compute (yamlParse tomlParse jsonParse : String → JVal) :
    parseMarkdownWithFrontMatter yamlParse tomlParse jsonParse
        "---\ntitle: Hi\n---\n\nBody text\n"
      = (yamlParse "title: Hi", "\nBody text\n") := rfl

/-- C6 (amended): on the input `"---\ntitle: Hi\n---\n\nBody text\n"` the
parser hands exactly `"title: Hi"` to the YAML codec — so the frontmatter
is `{title: "Hi"}` whenever the codec decodes it so — and the markdown body
is `"\nBody text\n"`: only the first newline after the closing delimiter is
consumed, the blank separator line's newline stays in the body. -/
theorem parseMarkdownWithFrontMatter_example (yamlParse tomlParse jsonParse : String → JVal)
    (h : yamlParse "title: Hi" = JVal.obj [("title", JVal.str "Hi")]) :
    parseMarkdownWithFrontMatter yamlParse tomlParse jsonParse
        "---\ntitle: Hi\n---\n\nBody text\n"
      = (JVal.obj [("title", JVal.str "Hi")], "\nBody text\n") := by
  rw [parseMarkdown_example_compute, h]

/-- A concrete stand-in for the external YAML codec, decoding exactly the
frontmatter block of the example. -/
def yamlStub : String → JVal := fun s =>
  if s = "title: Hi" then JVal.obj [("title", JVal.str "Hi")] else JVal.null

/-- Witness for C6's amended theorem at a concrete codec. -/
theorem parseMarkdownWithFrontMatter_example_witness :
    parseMarkdownWithFrontMatter yamlStub yamlStub yamlStub
        "---\ntitle: Hi\n---\n\nBody text\n"
      = (JVal.obj [("title", JVal.str "Hi")], "\nBody text\n") :=
  parseMarkdownWithFrontMatter_example yamlStub yamlStub yamlStub (by simp [yamlStub])

/-- Counterexample to C6 as stated: the markdown body on the example input
is not `"Body text\n"` — the parser leaves the blank separator line's
newline at the front of the body, as the source's own comment documents. -/
theorem parseMarkdownWithFrontMatter_example_counterexample :
    (parseMarkdownWithFrontMatter yamlStub yamlStub yamlStub
        "---\ntitle: Hi\n---\n\nBody text\n").2 ≠ "Body text\n"
    ∧ (parseMarkdownWithFrontMatter yamlStub yamlStub yamlStub
        "---\ntitle: Hi\n---\n\nBody text\n").2 = "\nBody text\n"
    ∧ (parseMarkdownWithFrontMatter yamlStub yamlStub yamlStub
        "---\ntitle: Hi\n---\n\nBody text\n").1
      = JVal.obj [("title", JVal.str "Hi")] :=
  ⟨by decide, rfl, rfl⟩

/-- C7 (amended): when none of the three delimiter styles matches the
normalized input, the frontmatter is null and the body is the input with
only the first occurrence of `"\r\n"` — anywhere in the string, not only
at its very start — replaced by `"\n"`; an input containing no `"\r\n"` at
all is returned verbatim. -/
theorem parseMarkdownWithFrontMatter_no_match (yamlParse tomlParse jsonParse : String → JVal)
    (string : String)
    (h1 : fmTypeMatches "---\n".data "\n---".data
        (replaceFirst string.data "\r\n".data "\n".data) = false)
    (h2 : fmTypeMatches "+++\n".data "\n+++".data
        (replaceFirst string.data "\r\n".data "\n".data) = false)
    (h3 : fmTypeMatches "\x7b\n".data "\n\x7d".data
        (replaceFirst string.data "\r\n".data "\n".data) = false) :
    parseMarkdownWithFrontMatter yamlParse tomlParse jsonParse string
      = (JVal.null, String.mk (replaceFirst string.data "\r\n".data "\n".data))
    ∧ (strFindIndex "\r\n".data string.data = none →
        parseMarkdownWithFrontMatter yamlParse tomlParse jsonParse string
          = (JVal.null, string)) := by
  have hmain : parseMarkdownWithFrontMatter yamlParse tomlParse jsonParse string
      = (JVal.null, String.mk (replaceFirst string.data "\r\n".data "\n".data)) := by
    simp only [parseMarkdownWithFrontMatter]
    rw [tryFrontMatterType_not_matching _ _ _ _ _ h1,
      tryFrontMatterType_not_matching _ _ _ _ _ h2,
      tryFrontMatterType_not_matching _ _ _ _ _ h3]
  refine ⟨hmain, ?_⟩
  intro hnone
  rw [hmain, replaceFirst, hnone]

/-- Witness for C7's amended theorem at a concrete input with no delimiter
match and no `"\r\n"`. -/
theorem parseMarkdownWithFrontMatter_no_match_witness :
    parseMarkdownWithFrontMatter yamlStub yamlStub yamlStub "No frontmatter here"
      = (JVal.null, "No frontmatter here") :=
  (parseMarkdownWithFrontMatter_no_match yamlStub yamlStub yamlStub
    "No frontmatter here" (by decide) (by decide) (by decide)).2 (by decide)

/-- Counterexample to C7 as stated: on `"No frontmatter\r\nhere"` no
delimiter style matches, yet the returned body is not the input verbatim —
the single `replace('\r\n', '\n')` rewrote a `"\r\n"` in the middle of the
string, not at its very start. -/
theorem parseMarkdownWithFrontMatter_crlf_counterexample :
    (parseMarkdownWithFrontMatter yamlStub yamlStub yamlStub
        "No frontmatter\r\nhere").2 ≠ "No frontmatter\r\nhere"
    ∧ (parseMarkdownWithFrontMatter yamlStub yamlStub yamlStub
        "No frontmatter\r\nhere").2 = "No frontmatter\nhere"
    ∧ (parseMarkdownWithFrontMatter yamlStub yamlStub yamlStub
        "No frontmatter\r\nhere").1 = JVal.null :=
  ⟨by decide, rfl, rfl⟩

end StackbitUtils
